import Mathlib

/-!
Shallow embedding of the AdaptivePow GPU miner core: the OpenCL kernels
(`adaptivepow_search`, `generate_dag`, `generate_cache`) and the host-side
driver (`opencl_miner.cpp` / `miner.cpp`).  Machine `uint` / `ulong` values
are modelled as `Nat` reduced modulo `2^32` / `2^64` at every operation
where overflow can occur.  Buffers (`uint*`) are modelled as `List Nat`
indexed with `List.getD` (default 0).
-/

namespace AdaptivePow

/-- `2^32`, the modulus of the C `uint` type. -/
def U32 : Nat := 4294967296

/-- `2^64`, the modulus of the C `ulong` type. -/
def U64 : Nat := 18446744073709551616

/-- FNV prime, `#define FNV_PRIME 0x01000193U`. -/
def FNV_PRIME : Nat := 0x01000193

/-- FNV offset basis, `#define FNV_OFFSET 0x811c9dc5U`. -/
def FNV_OFFSET : Nat := 0x811c9dc5

/-- `fnv1a(a,b) = (a ^ b) * FNV_PRIME` on `uint`. -/
def fnv1a (a b : Nat) : Nat := ((a ^^^ b) * FNV_PRIME) % U32

/-- `ROTL32(x, n) = rotate((uint)x, (uint)n)`: 32-bit left rotation.
OpenCL `rotate` takes the rotation count modulo the word width. -/
def rotl32 (x n : Nat) : Nat :=
  ((x <<< (n % 32)) ||| (x >>> (32 - n % 32))) % U32

/-- `clz32`: count of leading zero bits of a `uint` (OpenCL `clz`). -/
def clz32 (x : Nat) : Nat := 32 - Nat.size (x % U32)

/-- `popcount32`: number of set bits of a `uint` (OpenCL `popcount`). -/
def popcount32 (x : Nat) : Nat :=
  (List.range 32).foldl (fun acc i => acc + (x >>> i) % 2) 0

/-- KISS99 RNG state `{uint z, w, jsr, jcong}` (`kiss99_t`). -/
structure Kiss99 where
  z : Nat
  w : Nat
  jsr : Nat
  jcong : Nat
  deriving Repr, DecidableEq

/-- `kiss99_next`: advance the KISS99 state and produce the next value,
transcribed line by line from the OpenCL source. -/
def kiss99_next (st : Kiss99) : Kiss99 × Nat :=
  let z := (36969 * (st.z &&& 0xffff) + (st.z >>> 16)) % U32
  let w := (18000 * (st.w &&& 0xffff) + (st.w >>> 16)) % U32
  let mwc := ((z <<< 16) % U32 + w) % U32
  let jsr1 := (st.jsr ^^^ ((st.jsr <<< 17) % U32)) % U32
  let jsr2 := (jsr1 ^^^ (jsr1 >>> 13)) % U32
  let jsr3 := (jsr2 ^^^ ((jsr2 <<< 5) % U32)) % U32
  let jcong := (69069 * st.jcong + 1234567) % U32
  (⟨z, w, jsr3, jcong⟩, ((mwc ^^^ jcong) + jsr3) % U32)

/-- The 22 Keccak-f[800] round constants (`__constant uint keccak_rc[22]`). -/
def keccak_rc : List Nat :=
  [0x00000001, 0x00008082, 0x0000808a, 0x80008000,
   0x0000808b, 0x80000001, 0x80008081, 0x00008009,
   0x0000008a, 0x00000088, 0x80008009, 0x8000000a,
   0x8000808b, 0x0000008b, 0x00008089, 0x00008003,
   0x00008002, 0x00000080, 0x0000800a, 0x8000000a,
   0x80008081, 0x00008080]

/-- Keccak-f[800] θ step: column parities folded back into the state. -/
def keccakTheta (s : List Nat) : List Nat :=
  let c := (List.range 5).map fun i =>
    ((((s.getD i 0 ^^^ s.getD (i + 5) 0) ^^^ s.getD (i + 10) 0) ^^^
        s.getD (i + 15) 0) ^^^ s.getD (i + 20) 0) % U32
  let d := (List.range 5).map fun i =>
    (c.getD ((i + 4) % 5) 0 ^^^ rotl32 (c.getD ((i + 1) % 5) 0) 1) % U32
  (List.range 25).map fun i => (s.getD i 0 ^^^ d.getD (i % 5) 0) % U32

/-- One iteration of the source's simplified ρ+π loop:
`j = (i+1) % 25; t = state[j]; state[j] = ROTL32(temp, (i+1)*(i+2)/2 % 32); temp = t`.
The accumulator carries `(temp, state)`. -/
def keccakRhoPiStep (acc : Nat × List Nat) (i : Nat) : Nat × List Nat :=
  let j := (i + 1) % 25
  let t := acc.2.getD j 0
  (t, acc.2.set j (rotl32 acc.1 ((i + 1) * (i + 2) / 2 % 32)))

/-- Keccak-f[800] ρ+π as in the source: `temp = state[1]`, then 24 steps. -/
def keccakRhoPi (s : List Nat) : List Nat :=
  ((List.range 24).foldl keccakRhoPiStep (s.getD 1 0, s)).2

/-- Keccak-f[800] χ step: per 5-word row, `t[i] ^ ((~t[(i+1)%5]) & t[(i+2)%5])`.
`~t` on `uint` is `t ^ 0xFFFFFFFF`. -/
def keccakChi (s : List Nat) : List Nat :=
  (List.range 25).map fun idx =>
    let j := idx / 5 * 5
    let i := idx % 5
    (s.getD (j + i) 0 ^^^
      ((s.getD (j + (i + 1) % 5) 0 ^^^ 0xFFFFFFFF) &&& s.getD (j + (i + 2) % 5) 0)) % U32

/-- Keccak-f[800] ι step: XOR the round constant into word 0. -/
def keccakIota (s : List Nat) (round : Nat) : List Nat :=
  s.set 0 ((s.getD 0 0 ^^^ keccak_rc.getD round 0) % U32)

/-- One round of Keccak-f[800]: θ, ρ+π, χ, ι. -/
def keccakRound (s : List Nat) (round : Nat) : List Nat :=
  keccakIota (keccakChi (keccakRhoPi (keccakTheta s))) round

/-- `keccak_f800`: 22 rounds over the 25-word state. -/
def keccak_f800 (s : List Nat) : List Nat :=
  (List.range 22).foldl keccakRound s

/-- `random_math_op(a, b, op)`: the 11-entry random-op table, dispatching on
`op % 11`, with all arithmetic wrapping 32-bit unsigned. -/
def random_math_op (a b op : Nat) : Nat :=
  match op % 11 with
  | 0 => (a + b) % U32
  | 1 => (a * b) % U32
  | 2 => (a + (U32 - b % U32)) % U32
  | 3 => (a ^^^ b) % U32
  | 4 => rotl32 a (b &&& 31)
  | 5 => rotl32 a (32 - (b &&& 31))
  | 6 => (a &&& b) % U32
  | 7 => (a ||| b) % U32
  | 8 => (clz32 a + clz32 b) % U32
  | 9 => (popcount32 a + popcount32 b) % U32
  | 10 => ((a >>> (b &&& 15)) ||| ((b <<< (16 - (b &&& 15))) % U32)) % U32
  | _ => (a + b) % U32

/-! ## The `adaptivepow_search` kernel (per-work-item computation) -/

/-- `#define DAG_LOADS 64`. -/
def DAG_LOADS : Nat := 64

/-- `#define MATH_OPS 16`. -/
def MATH_OPS : Nat := 16

/-- `#define MIX_WORDS 64`. -/
def MIX_WORDS : Nat := 64

/-- Initial Keccak state of the search kernel: header words into
`state[0..20)`, then `state[19] = (uint)nonce`, `state[20] = (uint)(nonce>>32)`,
`state[21..25) = 0`. -/
def searchInitState (header : List Nat) (nonce : Nat) : List Nat :=
  let s := (List.range 25).map fun i => if i < 20 then header.getD i 0 % U32 else 0
  let s := s.set 19 (nonce % U32)
  s.set 20 ((nonce >>> 32) % U32)

/-- Mix initialization: `mix[i] = state[i % 25]` for `i = 0..63`. -/
def searchMixInit (state : List Nat) : List Nat :=
  (List.range MIX_WORDS).map fun i => state.getD (i % 25) 0

/-- KISS99 seeding from the post-Keccak state. -/
def searchRngInit (state : List Nat) : Kiss99 :=
  let z := fnv1a FNV_OFFSET (state.getD 0 0)
  let w := fnv1a z (state.getD 1 0)
  let jsr := fnv1a w (state.getD 2 0)
  let jcong := fnv1a jsr (state.getD 3 0)
  ⟨z, w, jsr, jcong⟩

/-- One random math operation: draw `src1`, `src2`, `dst` and `op_type` from
the RNG, then `mix[dst] = random_math_op(mix[src1], mix[src2], op_type)`. -/
def searchMathOp (acc : Kiss99 × List Nat) (_i : Nat) : Kiss99 × List Nat :=
  let (rng0, mix) := acc
  let (rng1, r1) := kiss99_next rng0
  let src1 := r1 % MIX_WORDS
  let (rng2, r2) := kiss99_next rng1
  let src2 := r2 % MIX_WORDS
  let (rng3, r3) := kiss99_next rng2
  let dst := r3 % MIX_WORDS
  let (rng4, opType) := kiss99_next rng3
  (rng4, mix.set dst (random_math_op (mix.getD src1 0) (mix.getD src2 0) opType))

/-- One main-loop round: DAG index selection, 16-word DAG load, FNV merge
into `mix[0..15]`, then `MATH_OPS` random math operations. -/
def searchRound (dag : List Nat) (dagSize : Nat) (acc : Kiss99 × List Nat)
    (round : Nat) : Kiss99 × List Nat :=
  let (rng, mix) := acc
  let dagIdx := fnv1a ((round ^^^ mix.getD (round % MIX_WORDS) 0) % U32)
    (mix.getD ((round + 1) % MIX_WORDS) 0) % dagSize
  let dagData := (List.range 16).map fun i => dag.getD (dagIdx * 16 + i) 0 % U32
  let mix1 := (List.range 16).foldl
    (fun m i => m.set i (fnv1a (m.getD i 0) (dagData.getD i 0))) mix
  (List.range MATH_OPS).foldl searchMathOp (rng, mix1)

/-- Compression: `state[i] = fnv1a-fold of mix[8i .. 8i+7]` for `i = 0..7`. -/
def searchCompress (mix : List Nat) : List Nat :=
  (List.range 8).map fun i =>
    (List.range 7).foldl (fun st j => fnv1a st (mix.getD (i * 8 + (j + 1)) 0))
      (mix.getD (i * 8) 0)

/-- The full per-nonce hash of the `adaptivepow_search` kernel: the value
`((ulong)state[0] << 32) | state[1]` after the final Keccak permutation. -/
def adaptivepow_hash (header : List Nat) (nonce : Nat) (dag : List Nat)
    (dagSize : Nat) : Nat :=
  let state := keccak_f800 (searchInitState header nonce)
  let mix := searchMixInit state
  let rng := searchRngInit state
  let mixF := ((List.range DAG_LOADS).foldl (searchRound dag dagSize) (rng, mix)).2
  let stateF := keccak_f800 (searchCompress mixF ++ List.replicate 17 0)
  ((stateF.getD 0 0) <<< 32) ||| stateF.getD 1 0

/-- The kernel's per-work-item found flag: the guard of
`if (hash_high <= target) { ... record nonce ... }`. -/
def adaptivepow_search_found (header : List Nat) (nonce : Nat) (dag : List Nat)
    (dagSize target : Nat) : Bool :=
  adaptivepow_hash header nonce dag dagSize ≤ target

/-! ## Result collection of a search batch and the host-side read-out -/

/-- `#define BATCH_SIZE (8192 * 256)` (host side, `opencl_miner.cpp`). -/
def BATCH_SIZE : Nat := 8192 * 256

/-- The nonces whose hash passes the target in one batch, in work-item order
(`nonce = start_nonce + thread_id`, `thread_id = 0 .. BATCH_SIZE-1`).  The
kernel's atomic counter admits each of these exactly once. -/
def batchFoundNonces (header : List Nat) (dag : List Nat)
    (dagSize target startNonce : Nat) : List Nat :=
  (List.range BATCH_SIZE).filterMap fun tid =>
    let nonce := (startNonce + tid) % U64
    if adaptivepow_search_found header nonce dag dagSize target then some nonce
    else none

/-- Host-side read-out of `adaptivepow_opencl_search`: read the result
counter; if it is nonzero, read slots `results[0]`, `results[1]` (the low and
high words written for the first admitted nonce) and return that nonce;
otherwise report nothing.  Slots other than slot 0 are never read. -/
def adaptivepow_opencl_search (header : List Nat) (dag : List Nat)
    (dagSize target startNonce : Nat) : Option Nat :=
  let found := batchFoundNonces header dag dagSize target startNonce
  let resultCount := found.length
  if resultCount > 0 then
    let n := found.getD 0 0
    some ((((n >>> 32) % U32) <<< 32) ||| (n % U32))
  else none

/-! ## The `generate_cache` kernel (sequential semantics over the buffer) -/

/-- The 16-word input block of cache item `idx`: for item 0, words [0..8) are
the seed words and words [8..16) are the seed words XOR `0xFFFFFFFF`; for
item `idx > 0`, the 16 words of the previously written item. -/
def cacheBlock (seed : List Nat) (cache : List Nat) (idx : Nat) : List Nat :=
  if idx = 0 then
    (List.range 16).map fun i =>
      if i < 8 then seed.getD i 0 % U32 else (seed.getD (i - 8) 0 % U32) ^^^ 0xFFFFFFFF
  else
    (List.range 16).map fun i => cache.getD ((idx - 1) * 16 + i) 0

/-- The 16 words written by one `generate_cache` work item: expand the block
to a 25-word state (9 zero words appended), apply Keccak-f[800], take the
first 16 state words. -/
def cacheNewItem (seed cache : List Nat) (idx : Nat) : List Nat :=
  (List.range 16).map fun i =>
    (keccak_f800 (cacheBlock seed cache idx ++ List.replicate 9 0)).getD i 0

/-- One `generate_cache` work item: append its 16 output words to the cache
buffer. -/
def cacheStep (seed : List Nat) (cache : List Nat) (idx : Nat) : List Nat :=
  cache ++ cacheNewItem seed cache idx

/-- `generate_cache`: the flat cache buffer after work items `0 .. n-1` have
run in index order. -/
def generate_cache (seed : List Nat) (n : Nat) : List Nat :=
  (List.range n).foldl (cacheStep seed) []

/-! ## The `generate_dag` kernel -/

/-- One `generate_dag` work item: initialize `mix` from cache item
`idx % cache_size` (the source wraps the flat index by `cache_size * 16`),
XOR `idx` into `mix[0]`, then 256 FNV mixing rounds against cache parents. -/
def generate_dag_item (cache : List Nat) (cacheSize : Nat) (idx : Nat) : List Nat :=
  let cacheIdx := idx % cacheSize
  let mix := (List.range 16).map fun i =>
    cache.getD ((cacheIdx * 16 + i) % (cacheSize * 16)) 0 % U32
  let mix := mix.set 0 ((mix.getD 0 0 ^^^ idx % U32) % U32)
  (List.range 256).foldl (fun m round =>
    let parent := fnv1a ((idx % U32 ^^^ round) % U32) (m.getD 0 0) % cacheSize
    (List.range 16).foldl
      (fun m2 i => m2.set i (fnv1a (m2.getD i 0) (cache.getD (parent * 16 + i) 0 % U32)))
      m) mix

/-- `generate_dag`: the flat DAG buffer, item `idx` at words
`[idx*16, idx*16+16)`. -/
def generate_dag (cache : List Nat) (cacheSize n : Nat) : List Nat :=
  (List.range n).foldl (fun d idx => d ++ generate_dag_item cache cacheSize idx) []

/-! ## Host-side epoch math, seed derivation, target math, driver, verifier -/

/-- `adaptivepow_get_seed` (miner core): LE epoch bytes into `seed[0..4)`,
then `seed[i] ^= (uint8)((epoch * 0x01000193) >> (i % 4 * 8))` for all 32
bytes.  The source comments this as a placeholder ("in production, use
proper Keccak"). -/
def adaptivepow_get_seed (epoch : Nat) : List Nat :=
  let e := epoch % U32
  let base := (List.range 32).map fun i =>
    if i = 0 then e % 256
    else if i = 1 then (e >>> 8) % 256
    else if i = 2 then (e >>> 16) % 256
    else if i = 3 then (e >>> 24) % 256
    else 0
  (List.range 32).map fun i =>
    base.getD i 0 ^^^ ((((e * 0x01000193) % U32) >>> (i % 4 * 8)) % 256)

/-- The seed built inside `adaptivepow_opencl_generate_dag`: all zero bytes
except `seed[0] = epoch & 0xFF`, `seed[1] = (epoch >> 8) & 0xFF`. -/
def opencl_generate_dag_seed (epoch : Nat) : List Nat :=
  (List.range 32).map fun i =>
    if i = 0 then epoch % U32 % 256
    else if i = 1 then ((epoch % U32) >>> 8) % 256
    else 0

/-- `bits_to_target64`: compact-bits to 64-bit target, with the C shifts
read as mathematical shifts on `Nat`. -/
def bits_to_target64 (nBits : Nat) : Nat :=
  let nSize := (nBits % U32) >>> 24
  let nWord := nBits &&& 0x007fffff
  if nSize ≤ 3 then nWord >>> (8 * (3 - nSize))
  else 0xFFFFFFFFFFFFFFFF >>> ((nSize - 3) * 8)

/-- `bits_to_target64` as a total function in which a shift of a 64-bit
quantity by 64 or more bits (undefined behaviour in C) takes an error
branch instead.  The `nSize ≤ 3` branch shifts the 23-bit `nWord` by at
most 24 bits and is always in range. -/
def bits_to_target64_checked (nBits : Nat) : Option Nat :=
  let nSize := (nBits % U32) >>> 24
  let nWord := nBits &&& 0x007fffff
  if nSize ≤ 3 then some (nWord >>> (8 * (3 - nSize)))
  else if (nSize - 3) * 8 < 64 then some (0xFFFFFFFFFFFFFFFF >>> ((nSize - 3) * 8))
  else none

/-- `MiningJob` (the fields of the C struct that the core reads). -/
structure MiningJob where
  prevHash : List Nat
  merkleRoot : List Nat
  nTime : Nat
  nBits : Nat
  target : Nat
  deriving Repr, DecidableEq

/-- `MiningResult` (fields read by the verifier). -/
structure MiningResult where
  nonce : Nat
  found : Bool
  deriving Repr, DecidableEq

/-- `verify_solution` as implemented: the body is
`// TODO: Implement full verification` followed by `return result->found;`. -/
def verify_solution (_job : MiningJob) (result : MiningResult) : Bool :=
  result.found

/-- The per-job nonce/hash bookkeeping of the miner context
(`uint64_t currentNonce`, `uint64_t totalHashes` in `struct MinerContext`). -/
structure MinerSearchState where
  currentNonce : Nat
  totalHashes : Nat
  deriving Repr, DecidableEq

/-- One `miner_submit_job` call on a ready DAG: the backend search reports
`*hashCount = BATCH_SIZE` unconditionally (set before any result is read),
and the driver then does `totalHashes += hashCount; currentNonce += hashCount`
on `uint64_t` fields, i.e. wrapping modulo `2^64`.  Neither update depends
on how many results were found. -/
def miner_submit_step (s : MinerSearchState) : MinerSearchState :=
  { currentNonce := (s.currentNonce + BATCH_SIZE) % U64,
    totalHashes := (s.totalHashes + BATCH_SIZE) % U64 }

/-- The driver state after `n` successive batches of one job. -/
def miner_run_batches (s : MinerSearchState) : Nat → MinerSearchState
  | 0 => s
  | Nat.succ n => miner_submit_step (miner_run_batches s n)

/-- The nonces probed by one batch starting at `start`:
`ulong nonce = start_nonce + thread_id` for the `BATCH_SIZE` work items,
wrapping modulo `2^64`. -/
def batch_probed (start : Nat) : List Nat :=
  (List.range BATCH_SIZE).map fun tid => (start + tid) % U64

/-- All nonces probed across `n` successive batches of one job starting at
`start`: batch `k` is dispatched at the driver's wrapped `uint64` cursor
after `k` batches. -/
def job_probed (start : Nat) : Nat → List Nat
  | 0 => []
  | Nat.succ n => job_probed start n ++
      batch_probed (miner_run_batches ⟨start, 0⟩ n).currentNonce

/-! ## Spec-side definitions (used to state claims against the embeddings) -/

/-- Iterate `f` over indices `0, 1, …, n-1`, accumulating left-to-right:
the recursion form of a `foldl` over `List.range n`. -/
def iterIdx (f : α → Nat → α) (a : α) : Nat → α
  | 0 => a
  | Nat.succ n => f (iterIdx f a n) n

/-- Spec side of C4: the cache items as the spec describes them, item by
item — item 0 from the seed block, item `i+1` from item `i`, each the first
16 words of Keccak-f[800] of the block padded with 9 zero words. -/
def c4_item (seed : List Nat) : Nat → List Nat
  | 0 =>
    (keccak_f800 (((List.range 16).map fun i =>
      if i < 8 then seed.getD i 0 % U32 else (seed.getD (i - 8) 0 % U32) ^^^ 0xFFFFFFFF)
        ++ List.replicate 9 0)).take 16
  | Nat.succ i =>
    (keccak_f800 (c4_item seed i ++ List.replicate 9 0)).take 16

/-- Spec side of C5: DAG item `i` as the claim describes it — `mix` is the
16 words of cache item `i mod n_cache` (no extra index wrap), `mix[0]` is
XORed with `i`, then 256 rounds with `parent = fnv1a(i ^ round, mix[0]) mod
n_cache` and `mix[k] = fnv1a(mix[k], cache[parent*16+k])`. -/
def c5_item_spec (cache : List Nat) (cacheSize : Nat) (idx : Nat) : List Nat :=
  let mix := (List.range 16).map fun i =>
    cache.getD ((idx % cacheSize) * 16 + i) 0 % U32
  let mix := mix.set 0 ((mix.getD 0 0 ^^^ idx % U32) % U32)
  iterIdx (fun m round =>
    let parent := fnv1a ((idx % U32 ^^^ round) % U32) (m.getD 0 0) % cacheSize
    iterIdx
      (fun m2 i => m2.set i (fnv1a (m2.getD i 0) (cache.getD (parent * 16 + i) 0 % U32)))
      m 16) mix 256

/-- The 16-word slice at item position `i` of a flat 64-byte-item buffer. -/
def itemAt (buf : List Nat) (i : Nat) : List Nat :=
  (buf.drop (16 * i)).take 16

/-- Spec side of C2: the §4.5 per-nonce hash as the claim words it, written
as a chain of explicitly indexed recursions (`iterIdx`) rather than the
kernel's buffer folds: seed state (header into words 0..19, word 19
overwritten by `low32(nonce)`, word 20 by `high32(nonce)`, words 21..24
zero) through Keccak-f[800]; `mix[k] = state[k mod 25]`; KISS99 seeded by
the `fnv1a` chain over `state[0..3]`; 64 rounds of one DAG load at index
`fnv1a(round ^ mix[round mod 64], mix[(round+1) mod 64]) mod n_dag` merged
by `fnv1a` into `mix[0..15]` only, then 16 KISS99-driven random ops;
compression of each group of 8 mix words by `fnv1a`; zero words 8..24 and a
final Keccak-f[800]; assemble `(state[0] << 32) | state[1]`. -/
def c2_hash_spec (header : List Nat) (nonce : Nat) (dag : List Nat)
    (nDag : Nat) : Nat :=
  let state0 := keccak_f800 ((List.range 25).map fun k =>
    if k = 19 then nonce % U32
    else if k = 20 then (nonce >>> 32) % U32
    else if k < 20 then header.getD k 0 % U32 else 0)
  let mix0 := (List.range 64).map fun k => state0.getD (k % 25) 0
  let z := fnv1a FNV_OFFSET (state0.getD 0 0)
  let w := fnv1a z (state0.getD 1 0)
  let jsr := fnv1a w (state0.getD 2 0)
  let jcong := fnv1a jsr (state0.getD 3 0)
  let mixF := (iterIdx (fun acc round =>
    let mix := acc.2
    let dagIdx := fnv1a ((round ^^^ mix.getD (round % 64) 0) % U32)
      (mix.getD ((round + 1) % 64) 0) % nDag
    let merged := iterIdx
      (fun m k => m.set k (fnv1a (m.getD k 0) (dag.getD (dagIdx * 16 + k) 0 % U32)))
      mix 16
    iterIdx searchMathOp (acc.1, merged) 16)
    ((⟨z, w, jsr, jcong⟩ : Kiss99), mix0) 64).2
  let stateF := keccak_f800 (((List.range 8).map fun i =>
    iterIdx (fun st j => fnv1a st (mixF.getD (i * 8 + (j + 1)) 0))
      (mixF.getD (i * 8) 0) 7) ++ List.replicate 17 0)
  ((stateF.getD 0 0) <<< 32) ||| stateF.getD 1 0

end AdaptivePow

namespace AdaptivePow

/-! ## General lemmas -/

theorem iterIdx_eq_foldl (f : α → Nat → α) (a : α) (n : Nat) :
    iterIdx f a n = (List.range n).foldl f a := by
  induction n with
  | zero => rfl
  | succ n ih => rw [List.range_succ, List.foldl_append]; simp [iterIdx, ih]

theorem U32_pos : 0 < U32 := by decide

theorem mod_U32_lt (x : Nat) : x % U32 < U32 := Nat.mod_lt x U32_pos

theorem getD_lt_of_mem_lt {l : List Nat} {B d : Nat} (hl : ∀ x ∈ l, x < B)
    (hd : d < B) (i : Nat) : l.getD i d < B := by
  rcases h : l[i]? with _ | x
  · simp [List.getD_eq_getElem?_getD, h, hd]
  · have hm : x ∈ l := List.getElem?_mem h
    simpa [List.getD_eq_getElem?_getD, h] using hl x hm

/-! ## Keccak-f[800] invariants: every output word is a 32-bit value -/

theorem keccakChi_mem_lt (s : List Nat) : ∀ x ∈ keccakChi s, x < U32 := by
  intro x hx
  unfold keccakChi at hx
  simp only [List.mem_map] at hx
  obtain ⟨i, _, rfl⟩ := hx
  exact mod_U32_lt _

theorem keccakIota_mem_lt (s : List Nat) (r : Nat) (hs : ∀ x ∈ s, x < U32) :
    ∀ x ∈ keccakIota s r, x < U32 := by
  intro x hx
  unfold keccakIota at hx
  rcases List.mem_or_eq_of_mem_set hx with h | h
  · exact hs x h
  · subst h; exact mod_U32_lt _

theorem keccakRound_mem_lt (s : List Nat) (r : Nat) : ∀ x ∈ keccakRound s r, x < U32 :=
  keccakIota_mem_lt _ _ (keccakChi_mem_lt _)

theorem keccak_f800_eq_last (s : List Nat) :
    keccak_f800 s = keccakRound ((List.range 21).foldl keccakRound s) 21 := by
  unfold keccak_f800
  rw [show (22 : Nat) = 21 + 1 from rfl, List.range_succ, List.foldl_append]
  rfl

theorem keccak_f800_mem_lt (s : List Nat) : ∀ x ∈ keccak_f800 s, x < U32 := by
  rw [keccak_f800_eq_last]
  exact keccakRound_mem_lt _ _

theorem keccakRound_length (s : List Nat) (r : Nat) : (keccakRound s r).length = 25 := by
  simp [keccakRound, keccakIota, keccakChi]

theorem keccak_f800_length (s : List Nat) : (keccak_f800 s).length = 25 := by
  rw [keccak_f800_eq_last]; exact keccakRound_length _ _

/-- The assembled hash of a bounded state is below `2^64`. -/
theorem hashHigh_lt (s : List Nat) (hs : ∀ x ∈ s, x < U32) :
    ((s.getD 0 0) <<< 32 ||| s.getD 1 0) < U64 := by
  have h0 : s.getD 0 0 < U32 := getD_lt_of_mem_lt hs (by decide) 0
  have h1 : s.getD 1 0 < U32 := getD_lt_of_mem_lt hs (by decide) 1
  have e64 : U64 = 2 ^ 64 := by decide
  have e32 : U32 = 2 ^ 32 := by decide
  rw [e64]
  apply Nat.or_lt_two_pow
  · rw [Nat.shiftLeft_eq]
    calc s.getD 0 0 * 2 ^ 32 < 2 ^ 32 * 2 ^ 32 := by
          exact Nat.mul_lt_mul_of_lt_of_le (e32 ▸ h0) (Nat.le_refl _) (by positivity)
      _ = 2 ^ 64 := by norm_num
  · exact lt_trans (e32 ▸ h1) (by norm_num)

/-- The per-nonce hash of the search kernel is a 64-bit value. -/
theorem adaptivepow_hash_lt (header : List Nat) (nonce : Nat) (dag : List Nat)
    (dagSize : Nat) : adaptivepow_hash header nonce dag dagSize < U64 := by
  unfold adaptivepow_hash
  exact hashHigh_lt _ (keccak_f800_mem_lt _)

/-! ## Equivalence of the kernel hash with its spec-side rendering -/

theorem getD_map_range (f : Nat → α) (n i : Nat) (d : α) :
    ((List.range n).map f).getD i d = if i < n then f i else d := by
  by_cases h : i < n
  · simp [List.getD_eq_getElem?_getD, List.getElem?_range h, h]
  · have hn : (List.range n)[i]? = none := by
      rw [List.getElem?_eq_none_iff]
      simpa using Nat.le_of_not_lt h
    simp [List.getD_eq_getElem?_getD, hn, h]

set_option maxRecDepth 8192 in
theorem searchInitState_eq (header : List Nat) (nonce : Nat) :
    searchInitState header nonce = (List.range 25).map fun k =>
      if k = 19 then nonce % U32
      else if k = 20 then (nonce >>> 32) % U32
      else if k < 20 then header.getD k 0 % U32 else 0 := by
  rfl

theorem dagMerge_eq (dag : List Nat) (base : Nat) (mix : List Nat) :
    (List.range 16).foldl (fun m i => m.set i (fnv1a (m.getD i 0)
      (((List.range 16).map fun t => dag.getD (base * 16 + t) 0 % U32).getD i 0))) mix =
    (List.range 16).foldl (fun m k => m.set k (fnv1a (m.getD k 0)
      (dag.getD (base * 16 + k) 0 % U32))) mix := by
  apply List.foldl_ext
  intro m i hi
  rw [getD_map_range]
  simp [List.mem_range.mp hi]

theorem searchRound_eq_spec (dag : List Nat) (nDag : Nat) (acc : Kiss99 × List Nat)
    (round : Nat) :
    searchRound dag nDag acc round =
      (let mix := acc.2
       let dagIdx := fnv1a ((round ^^^ mix.getD (round % 64) 0) % U32)
         (mix.getD ((round + 1) % 64) 0) % nDag
       let merged := iterIdx
         (fun m k => m.set k (fnv1a (m.getD k 0) (dag.getD (dagIdx * 16 + k) 0 % U32)))
         mix 16
       iterIdx searchMathOp (acc.1, merged) 16) := by
  obtain ⟨rng, mix⟩ := acc
  show (List.range 16).foldl searchMathOp
      (rng, (List.range 16).foldl
        (fun m i => m.set i (fnv1a (m.getD i 0)
          (((List.range 16).map fun t =>
            dag.getD ((fnv1a ((round ^^^ mix.getD (round % 64) 0) % U32)
              (mix.getD ((round + 1) % 64) 0) % nDag) * 16 + t) 0 % U32).getD i 0))) mix)
    = iterIdx searchMathOp
      (rng, iterIdx (fun m k => m.set k (fnv1a (m.getD k 0)
        (dag.getD ((fnv1a ((round ^^^ mix.getD (round % 64) 0) % U32)
          (mix.getD ((round + 1) % 64) 0) % nDag) * 16 + k) 0 % U32))) mix 16) 16
  rw [iterIdx_eq_foldl, iterIdx_eq_foldl]
  exact congrArg (fun mm => (List.range 16).foldl searchMathOp (rng, mm))
    (dagMerge_eq dag _ mix)

theorem adaptivepow_hash_eq_spec (header : List Nat) (nonce : Nat) (dag : List Nat)
    (nDag : Nat) :
    adaptivepow_hash header nonce dag nDag = c2_hash_spec header nonce dag nDag := by
  have hstep : searchRound dag nDag = (fun acc round =>
      let mix := acc.2
      let dagIdx := fnv1a ((round ^^^ mix.getD (round % 64) 0) % U32)
        (mix.getD ((round + 1) % 64) 0) % nDag
      let merged := iterIdx
        (fun m k => m.set k (fnv1a (m.getD k 0) (dag.getD (dagIdx * 16 + k) 0 % U32)))
        mix 16
      iterIdx searchMathOp (acc.1, merged) 16) :=
    funext fun acc => funext fun round => searchRound_eq_spec dag nDag acc round
  unfold adaptivepow_hash c2_hash_spec
  rw [hstep, searchInitState_eq]
  simp only [iterIdx_eq_foldl, searchCompress, searchMixInit, searchRngInit,
    MIX_WORDS, DAG_LOADS, MATH_OPS]

/-! ## Flat-buffer slice lemmas -/

theorem take_map_getD (l : List α) (n : Nat) (d : α) (h : n ≤ l.length) :
    l.take n = (List.range n).map fun k => l.getD k d := by
  apply List.ext_getElem
  · simp [h]
  · intro i h1 h2
    have hi : i < n := by simpa using h2
    have hil : i < l.length := Nat.lt_of_lt_of_le hi h
    simp [List.getD_eq_getElem?_getD, List.getElem?_eq_getElem hil]

theorem itemAt_eq_map_getD (buf : List Nat) (i : Nat) (h : 16 * i + 16 ≤ buf.length) :
    itemAt buf i = (List.range 16).map fun k => buf.getD (16 * i + k) 0 := by
  unfold itemAt
  rw [take_map_getD (buf.drop (16 * i)) 16 0 (by simp; omega)]
  apply List.map_congr_left
  intro k _
  rw [List.getD_eq_getElem?_getD, List.getElem?_drop, ← List.getD_eq_getElem?_getD]

theorem itemAt_append_left {buf l : List Nat} {i : Nat} (h : 16 * i + 16 ≤ buf.length) :
    itemAt (buf ++ l) i = itemAt buf i := by
  rw [itemAt_eq_map_getD _ _ (by simp; omega), itemAt_eq_map_getD _ _ h]
  apply List.map_congr_left
  intro k hk
  have hkl : 16 * i + k < buf.length := by
    have := List.mem_range.mp hk; omega
  rw [List.getD_eq_getElem?_getD, List.getElem?_append_left hkl,
    ← List.getD_eq_getElem?_getD]

theorem itemAt_append_self {buf l : List Nat} {i : Nat} (h : buf.length = 16 * i) :
    itemAt (buf ++ l) i = l.take 16 := by
  unfold itemAt
  rw [List.drop_left' h]

/-! ## `generate_cache` structure lemmas -/

theorem generate_cache_succ (seed : List Nat) (n : Nat) :
    generate_cache seed (n + 1) = cacheStep seed (generate_cache seed n) n := by
  unfold generate_cache
  rw [List.range_succ, List.foldl_append]
  rfl

theorem cacheNewItem_length (seed cache : List Nat) (idx : Nat) :
    (cacheNewItem seed cache idx).length = 16 := by
  simp [cacheNewItem]

theorem cacheNewItem_eq_take (seed cache : List Nat) (idx : Nat) :
    cacheNewItem seed cache idx =
      (keccak_f800 (cacheBlock seed cache idx ++ List.replicate 9 0)).take 16 := by
  rw [take_map_getD _ 16 0 (by rw [keccak_f800_length]; omega)]
  rfl

theorem generate_cache_length (seed : List Nat) (n : Nat) :
    (generate_cache seed n).length = 16 * n := by
  induction n with
  | zero => rfl
  | succ n ih =>
    rw [generate_cache_succ]
    unfold cacheStep
    simp [ih, cacheNewItem_length]
    ring

theorem c4_item_last (seed : List Nat) (i : Nat) :
    itemAt (generate_cache seed (i + 1)) i = c4_item seed i := by
  induction i with
  | zero =>
    show (cacheNewItem seed [] 0).take 16 = c4_item seed 0
    rw [cacheNewItem_eq_take, List.take_take]
    rfl
  | succ i ih =>
    rw [generate_cache_succ]
    show itemAt (generate_cache seed (i + 1) ++
      cacheNewItem seed (generate_cache seed (i + 1)) (i + 1)) (i + 1) = c4_item seed (i + 1)
    rw [itemAt_append_self (generate_cache_length seed (i + 1)),
      List.take_of_length_le (Nat.le_of_eq (cacheNewItem_length _ _ _)),
      cacheNewItem_eq_take]
    have hblock : cacheBlock seed (generate_cache seed (i + 1)) (i + 1) = c4_item seed i := by
      unfold cacheBlock
      rw [if_neg (Nat.succ_ne_zero i)]
      have hmap : ((List.range 16).map fun k =>
          (generate_cache seed (i + 1)).getD ((i + 1 - 1) * 16 + k) 0) =
          (List.range 16).map fun k =>
          (generate_cache seed (i + 1)).getD (16 * i + k) 0 := by
        apply List.map_congr_left
        intro k _
        have he : (i + 1 - 1) * 16 = 16 * i := by omega
        rw [he]
      rw [hmap, ← itemAt_eq_map_getD _ _ (by rw [generate_cache_length]; omega), ih]
    rw [hblock]
    rfl

/-! ## `generate_dag` structure lemmas -/

theorem foldl_length_inv (f : List Nat → Nat → List Nat)
    (hf : ∀ m i, (f m i).length = m.length) (idxs : List Nat) (l : List Nat) :
    (idxs.foldl f l).length = l.length := by
  induction idxs generalizing l with
  | nil => rfl
  | cons a idxs ih => simp [List.foldl_cons, ih, hf]

theorem generate_dag_item_length (cache : List Nat) (cs idx : Nat) :
    (generate_dag_item cache cs idx).length = 16 := by
  unfold generate_dag_item
  rw [foldl_length_inv]
  · simp
  · intro m i
    rw [foldl_length_inv]
    intro m2 i2
    simp

theorem generate_dag_succ (cache : List Nat) (cs n : Nat) :
    generate_dag cache cs (n + 1) =
      generate_dag cache cs n ++ generate_dag_item cache cs n := by
  unfold generate_dag
  rw [List.range_succ, List.foldl_append]
  rfl

theorem generate_dag_length (cache : List Nat) (cs n : Nat) :
    (generate_dag cache cs n).length = 16 * n := by
  induction n with
  | zero => rfl
  | succ n ih =>
    rw [generate_dag_succ]
    simp [ih, generate_dag_item_length]
    ring

theorem generate_dag_item_eq_spec (cache : List Nat) (cs idx : Nat) (h : 1 ≤ cs) :
    generate_dag_item cache cs idx = c5_item_spec cache cs idx := by
  have hmap : ((List.range 16).map fun i =>
      cache.getD ((idx % cs * 16 + i) % (cs * 16)) 0 % U32) =
      (List.range 16).map fun i => cache.getD (idx % cs * 16 + i) 0 % U32 := by
    apply List.map_congr_left
    intro i hi
    have h1 : idx % cs < cs := Nat.mod_lt idx h
    have h2 : i < 16 := List.mem_range.mp hi
    have h3 : idx % cs * 16 + i < cs * 16 := by omega
    rw [Nat.mod_eq_of_lt h3]
  unfold generate_dag_item c5_item_spec
  simp only [iterIdx_eq_foldl]
  rw [hmap]

/-! ## Batch-driver lemmas -/

theorem miner_run_currentNonce (start h0 N : Nat) (h : start < U64) :
    (miner_run_batches ⟨start, h0⟩ N).currentNonce =
      (start + N * BATCH_SIZE) % U64 := by
  induction N with
  | zero => simp [miner_run_batches, Nat.mod_eq_of_lt h]
  | succ n ih =>
    show ((miner_run_batches ⟨start, h0⟩ n).currentNonce + BATCH_SIZE) % U64 = _
    rw [ih, Nat.mod_add_mod]
    congr 1
    ring

theorem miner_run_totalHashes (start h0 N : Nat) (h : h0 < U64) :
    (miner_run_batches ⟨start, h0⟩ N).totalHashes =
      (h0 + N * BATCH_SIZE) % U64 := by
  induction N with
  | zero => simp [miner_run_batches, Nat.mod_eq_of_lt h]
  | succ n ih =>
    show ((miner_run_batches ⟨start, h0⟩ n).totalHashes + BATCH_SIZE) % U64 = _
    rw [ih, Nat.mod_add_mod]
    congr 1
    ring

theorem batch_probed_no_wrap (start : Nat) (h : start + BATCH_SIZE ≤ U64) :
    batch_probed start = (List.range BATCH_SIZE).map fun tid => start + tid := by
  apply List.map_congr_left
  intro tid htid
  have := List.mem_range.mp htid
  exact Nat.mod_eq_of_lt (by omega)

theorem job_probed_mem_no_overflow (start : Nat) :
    ∀ N, start + N * BATCH_SIZE < U64 →
      ∀ m, m ∈ job_probed start N ↔ start ≤ m ∧ m < start + N * BATCH_SIZE := by
  intro N
  induction N with
  | zero =>
    intro _ m
    simp only [job_probed, List.not_mem_nil, false_iff]
    omega
  | succ n ih =>
    intro hs m
    have e : (n + 1) * BATCH_SIZE = n * BATCH_SIZE + BATCH_SIZE :=
      Nat.succ_mul n BATCH_SIZE
    rw [e] at hs
    have hs2 : start + n * BATCH_SIZE < U64 := by omega
    have hstart : start < U64 := by omega
    show m ∈ job_probed start n ++
      batch_probed (miner_run_batches ⟨start, 0⟩ n).currentNonce ↔ _
    rw [miner_run_currentNonce start 0 n hstart, Nat.mod_eq_of_lt hs2,
      batch_probed_no_wrap _ (by omega), e]
    simp only [List.mem_append, List.mem_map, List.mem_range, ih hs2]
    constructor
    · rintro (⟨hm1, hm2⟩ | ⟨tid, htid, rfl⟩) <;> constructor <;> omega
    · rintro ⟨hm1, hm2⟩
      by_cases hc : m < start + n * BATCH_SIZE
      · exact Or.inl ⟨hm1, hc⟩
      · exact Or.inr ⟨m - (start + n * BATCH_SIZE), by omega, by omega⟩

theorem job_probed_nodup_no_overflow (start : Nat) :
    ∀ N, start + N * BATCH_SIZE < U64 → (job_probed start N).Nodup := by
  intro N
  induction N with
  | zero => intro _; exact List.nodup_nil
  | succ n ih =>
    intro hs
    have e : (n + 1) * BATCH_SIZE = n * BATCH_SIZE + BATCH_SIZE :=
      Nat.succ_mul n BATCH_SIZE
    rw [e] at hs
    have hs2 : start + n * BATCH_SIZE < U64 := by omega
    have hstart : start < U64 := by omega
    show (job_probed start n ++
      batch_probed (miner_run_batches ⟨start, 0⟩ n).currentNonce).Nodup
    rw [miner_run_currentNonce start 0 n hstart, Nat.mod_eq_of_lt hs2,
      batch_probed_no_wrap _ (by omega)]
    rw [List.nodup_append]
    refine ⟨ih hs2,
      List.Nodup.map (fun a b hab => by omega) (List.nodup_range _), ?_⟩
    intro a ha hb
    rw [job_probed_mem_no_overflow start n hs2 a] at ha
    simp only [List.mem_map, List.mem_range] at hb
    obtain ⟨tid, htid, rfl⟩ := hb
    omega

/-! ## Claim theorems -/

/-- C1: the claim says `verify_solution` recomputes the §4.5 hash on the CPU
and returns true exactly when the recomputed hash passes the target.  The
code is a stub that echoes `result->found`: with the all-ones target every
recomputed `hash_high` (a 64-bit value) passes, yet `verify_solution`
returns `false` for a result with `found = false`. -/
theorem c1_verify_solution_is_stub :
    verify_solution
      ⟨List.replicate 8 0, List.replicate 8 0, 0, 0, 0xFFFFFFFFFFFFFFFF⟩
      ⟨0, false⟩ = false ∧
    adaptivepow_hash (List.replicate 20 0) 0 (List.replicate 16 0) 1 ≤
      0xFFFFFFFFFFFFFFFF := by
  refine ⟨rfl, ?_⟩
  have h := adaptivepow_hash_lt (List.replicate 20 0) 0 (List.replicate 16 0) 1
  have e : U64 = 18446744073709551616 := rfl
  omega

/-- C2: for every header, nonce, DAG with `n_dag ≥ 1` and target, the search
kernel records the nonce as found exactly when the §4.5 hash — seed state
from the header with word 19 overwritten by `low32(nonce)`, word 20 by
`high32(nonce)`, words 21..24 zeroed, Keccak-f[800]; `mix[k] = state[k mod
25]`; KISS99 seeded by the `fnv1a` chain over `state[0..3]`; 64 rounds of
one DAG load at `fnv1a(round ^ mix[round mod 64], mix[(round+1) mod 64])
mod n_dag` merged into `mix[0..15]` followed by 16 KISS99-driven random
ops; `fnv1a` compression of each group of 8; zeroed words 8..24 and a final
Keccak-f[800] — assembled as `(state[0] << 32) | state[1]`, is at most the
target. -/
theorem c2_search_found_iff_hash (header : List Nat) (nonce : Nat)
    (dag : List Nat) (nDag target : Nat) (_h : 1 ≤ nDag) :
    adaptivepow_search_found header nonce dag nDag target = true ↔
      c2_hash_spec header nonce dag nDag ≤ target := by
  unfold adaptivepow_search_found
  rw [adaptivepow_hash_eq_spec]
  exact decide_eq_true_iff

/-- Witness for C2 at a concrete input (`n_dag = 1`). -/
theorem c2_search_found_iff_hash_witness :
    (1 : Nat) ≤ 1 ∧
    (adaptivepow_search_found (List.replicate 20 0) 0 (List.replicate 16 0) 1 0 = true ↔
      c2_hash_spec (List.replicate 20 0) 0 (List.replicate 16 0) 1 ≤ 0) :=
  ⟨Nat.le_refl 1,
   c2_search_found_iff_hash (List.replicate 20 0) 0 (List.replicate 16 0) 1 0 (Nat.le_refl 1)⟩

/-- C3: the claim says the seed is the Keccak-256 digest of the 32-byte
little-endian epoch block, derived solely from the epoch.  The code carries
two placeholder derivations that already disagree with each other at epoch
1 (so they cannot both be that digest), and at epoch 0 `adaptivepow_get_seed`
returns 32 zero bytes, not a Keccak-256 digest. -/
theorem c3_seed_is_placeholder :
    adaptivepow_get_seed 1 ≠ opencl_generate_dag_seed 1 ∧
    adaptivepow_get_seed 0 = List.replicate 32 0 := by
  constructor
  · decide
  · decide

/-- C7 counterexample: the claim says `random_math_op(a, 0, 10) = 0` for
every 32-bit `a`; at `a = 1` the op returns `1`. -/
theorem c7_counterexample : random_math_op 1 0 10 ≠ 0 := by decide

/-- C7 amended: op 10 with `b = 0` is `(a >> 0) | (0 << 16)`, which equals
`a` (not 0) for every 32-bit `a`. -/
theorem c7_random_op10_b0 (a : Nat) (h : a < U32) :
    random_math_op a 0 10 = a := by
  show ((a >>> (0 &&& 15)) ||| ((0 <<< (16 - (0 &&& 15))) % U32)) % U32 = a
  simp [Nat.mod_eq_of_lt h]

/-- Witness for C7 amended at `a = 5`. -/
theorem c7_random_op10_b0_witness : 5 < U32 ∧ random_math_op 5 0 10 = 5 :=
  ⟨by decide, c7_random_op10_b0 5 (by decide)⟩

/-- C8 counterexample: the claim assigns a return value to every 32-bit
`nBits`, but at `nBits = 0xFF000000` (`size = 255`) the program's 64-bit
shift count is `(255−3)·8 = 2016 ≥ 64` — undefined behaviour, the error
branch of the total embedding — so the program does not compute the claimed
formula value there. -/
theorem c8_counterexample :
    bits_to_target64_checked 0xFF000000 ≠
      some (0xFFFFFFFFFFFFFFFF >>> ((0xFF000000 >>> 24 - 3) * 8)) := by
  decide

/-- C8 amended: on the domain where every shift of `bits_to_target64` is
defined (`nBits >> 24 ≤ 10`, per the C9 analysis), the function returns
`word >> (8·(3−size))` when `size ≤ 3` and
`0xFFFFFFFFFFFFFFFF >> ((size−3)·8)` when `3 < size ≤ 10`, with
`size = nBits >> 24` and `word = nBits & 0x007fffff`. -/
theorem c8_bits_to_target64_defined (nBits : Nat) (h1 : nBits < U32)
    (h2 : nBits >>> 24 ≤ 10) :
    bits_to_target64_checked nBits = some (bits_to_target64 nBits) ∧
    bits_to_target64_checked nBits =
      some (if nBits >>> 24 ≤ 3 then
          (nBits &&& 0x007fffff) >>> (8 * (3 - nBits >>> 24))
        else 0xFFFFFFFFFFFFFFFF >>> ((nBits >>> 24 - 3) * 8)) := by
  unfold bits_to_target64_checked bits_to_target64
  rw [Nat.mod_eq_of_lt h1]
  by_cases h3 : nBits >>> 24 ≤ 3
  · constructor <;> simp [h3]
  · have h64 : (nBits >>> 24 - 3) * 8 < 64 := by omega
    constructor <;> simp [h3, h64]

/-- Witness for C8 amended at `nBits = 0x04123456` (`size = 4`, shift 8). -/
theorem c8_bits_to_target64_defined_witness :
    (0x04123456 < U32 ∧ 0x04123456 >>> 24 ≤ 10) ∧
    (bits_to_target64_checked 0x04123456 = some (bits_to_target64 0x04123456) ∧
     bits_to_target64_checked 0x04123456 =
       some (if 0x04123456 >>> 24 ≤ 3 then
           (0x04123456 &&& 0x007fffff) >>> (8 * (3 - 0x04123456 >>> 24))
         else 0xFFFFFFFFFFFFFFFF >>> ((0x04123456 >>> 24 - 3) * 8))) :=
  ⟨⟨by decide, by decide⟩,
   c8_bits_to_target64_defined 0x04123456 (by decide) (by decide)⟩

/-- C9 counterexample: the claim says every shift in `bits_to_target64` has
a count below 64 for all inputs; at `nBits = 0x0C000000` (`size = 12`) the
64-bit shift count is 72, so the checked embedding takes the error branch. -/
theorem c9_counterexample : bits_to_target64_checked 0x0C000000 = none := by
  decide

/-- C9 amended: the out-of-range branch is avoided exactly when
`nBits >> 24 ≤ 10` — sizes 0..3 shift the 23-bit word by at most 24 bits,
sizes 4..10 shift the 64-bit constant by 8..56 bits, and sizes ≥ 11 shift
by 64 or more. -/
theorem c9_shift_in_range_iff (nBits : Nat) (h : nBits < U32) :
    (bits_to_target64_checked nBits).isSome = true ↔ nBits >>> 24 ≤ 10 := by
  unfold bits_to_target64_checked
  rw [Nat.mod_eq_of_lt h]
  by_cases h3 : nBits >>> 24 ≤ 3
  · simp [h3]; omega
  · by_cases h64 : (nBits >>> 24 - 3) * 8 < 64
    · simp [h3, h64]; omega
    · simp [h3, h64]; omega

/-- Witness for C9 amended at `nBits = 0x0A00ffff` (`size = 10`). -/
theorem c9_shift_in_range_iff_witness :
    0x0A00ffff < U32 ∧
    ((bits_to_target64_checked 0x0A00ffff).isSome = true ↔ 0x0A00ffff >>> 24 ≤ 10) :=
  ⟨by decide, c9_shift_in_range_iff 0x0A00ffff (by decide)⟩

/-- C4: for every seed and every cache index `i < n_cache`, `generate_cache`
produces `cache[i]` equal to the first 16 words of Keccak-f[800] of the
25-word state whose first 16 words are block `b_i` (the seed block for
`i = 0`, the previous item for `i > 0`) and whose last 9 words are zero. -/
theorem c4_generate_cache_items (seed : List Nat) (n i : Nat) (h : i < n) :
    itemAt (generate_cache seed n) i = c4_item seed i := by
  induction n with
  | zero => omega
  | succ n ih =>
    rcases Nat.lt_succ_iff_lt_or_eq.mp h with h2 | h2
    · rw [generate_cache_succ]
      show itemAt (generate_cache seed n ++
        cacheNewItem seed (generate_cache seed n) n) i = _
      rw [itemAt_append_left (by rw [generate_cache_length]; omega)]
      exact ih h2
    · subst h2
      exact c4_item_last seed i

/-- Witness for C4 at `n_cache = 1`, `i = 0`. -/
theorem c4_generate_cache_items_witness :
    0 < 1 ∧ itemAt (generate_cache (List.replicate 8 0) 1) 0 =
      c4_item (List.replicate 8 0) 0 :=
  ⟨Nat.one_pos, c4_generate_cache_items (List.replicate 8 0) 1 0 Nat.one_pos⟩

/-- C5: for every cache with `n_cache ≥ 1` items and every DAG index
`i < n_dag`, `generate_dag` writes `dag[i]` equal to: `mix` initialized to
the 16 words of cache item `i mod n_cache`, `mix[0]` XORed with `i`, then
256 rounds with `parent = fnv1a(i ^ round, mix[0]) mod n_cache` and
`mix[k] = fnv1a(mix[k], cache[parent*16+k])` for `k = 0..15`. -/
theorem c5_generate_dag_items (cache : List Nat) (cs n idx : Nat)
    (h1 : 1 ≤ cs) (h2 : idx < n) :
    itemAt (generate_dag cache cs n) idx = c5_item_spec cache cs idx := by
  induction n with
  | zero => omega
  | succ n ih =>
    rw [generate_dag_succ]
    rcases Nat.lt_succ_iff_lt_or_eq.mp h2 with h3 | h3
    · rw [itemAt_append_left (by rw [generate_dag_length]; omega)]
      exact ih h3
    · subst h3
      rw [itemAt_append_self (generate_dag_length cache cs idx),
        List.take_of_length_le (Nat.le_of_eq (generate_dag_item_length _ _ _))]
      exact generate_dag_item_eq_spec cache cs idx h1

/-- Witness for C5 at `n_cache = 1`, `n_dag = 1`, `i = 0`. -/
theorem c5_generate_dag_items_witness :
    1 ≤ 1 ∧ 0 < 1 ∧
    itemAt (generate_dag (List.replicate 16 0) 1 1) 0 =
      c5_item_spec (List.replicate 16 0) 1 0 :=
  ⟨Nat.le_refl 1, Nat.one_pos,
   c5_generate_dag_items (List.replicate 16 0) 1 1 0 (Nat.le_refl 1) Nat.one_pos⟩

/-- C6 counterexample: the claim says `current_nonce` advances
monotonically for every job; the field is a wrapping `uint64_t`, and with a
batch starting at `2^64 − BATCH_SIZE` the cursor wraps to 0, strictly below
its previous value. -/
theorem c6_counterexample :
    (miner_run_batches ⟨U64 - BATCH_SIZE, 0⟩ 1).currentNonce <
      (miner_run_batches ⟨U64 - BATCH_SIZE, 0⟩ 0).currentNonce := by
  decide

/-- C6 amended: within one job whose nonce range does not overflow the
64-bit cursor (`start + N·BATCH_SIZE < 2^64`, and likewise for the hash
counter), across `N` successive batches `current_nonce` advances
monotonically, `total_hashes` increases by `BATCH_SIZE = 2^21` per batch
regardless of how many results were found, and the probed nonces are
exactly the interval `[start, start + N·BATCH_SIZE)` with no nonce probed
twice. -/
theorem c6_batch_driver_no_overflow (start h0 N : Nat)
    (hs : start + N * BATCH_SIZE < U64) (hh : h0 + N * BATCH_SIZE < U64) :
    BATCH_SIZE = 2 ^ 21 ∧
    (miner_run_batches ⟨start, h0⟩ N).currentNonce = start + N * BATCH_SIZE ∧
    (∀ k, k < N →
      (miner_run_batches ⟨start, h0⟩ k).currentNonce ≤
        (miner_run_batches ⟨start, h0⟩ (k + 1)).currentNonce) ∧
    (miner_run_batches ⟨start, h0⟩ N).totalHashes = h0 + N * BATCH_SIZE ∧
    (job_probed start N).Nodup ∧
    ∀ m, m ∈ job_probed start N ↔ start ≤ m ∧ m < start + N * BATCH_SIZE := by
  have hstart : start < U64 := by omega
  have hh0 : h0 < U64 := by omega
  refine ⟨by decide, ?_, ?_, ?_, job_probed_nodup_no_overflow start N hs,
    job_probed_mem_no_overflow start N hs⟩
  · rw [miner_run_currentNonce start h0 N hstart, Nat.mod_eq_of_lt hs]
  · intro k hk
    have h1 : k * BATCH_SIZE ≤ N * BATCH_SIZE :=
      Nat.mul_le_mul_right _ (Nat.le_of_lt hk)
    have h2 : (k + 1) * BATCH_SIZE ≤ N * BATCH_SIZE :=
      Nat.mul_le_mul_right _ hk
    have e : (k + 1) * BATCH_SIZE = k * BATCH_SIZE + BATCH_SIZE :=
      Nat.succ_mul k BATCH_SIZE
    rw [miner_run_currentNonce start h0 k hstart,
      miner_run_currentNonce start h0 (k + 1) hstart,
      Nat.mod_eq_of_lt (by omega), Nat.mod_eq_of_lt (by omega)]
    omega
  · rw [miner_run_totalHashes start h0 N hh0, Nat.mod_eq_of_lt hh]

/-- Witness for C6 amended at `start = 0`, `h0 = 0`, `N = 1`. -/
theorem c6_batch_driver_no_overflow_witness :
    (0 + 1 * BATCH_SIZE < U64 ∧ 0 + 1 * BATCH_SIZE < U64) ∧
    (BATCH_SIZE = 2 ^ 21 ∧
     (miner_run_batches ⟨0, 0⟩ 1).currentNonce = 0 + 1 * BATCH_SIZE ∧
     (∀ k, k < 1 →
       (miner_run_batches ⟨0, 0⟩ k).currentNonce ≤
         (miner_run_batches ⟨0, 0⟩ (k + 1)).currentNonce) ∧
     (miner_run_batches ⟨0, 0⟩ 1).totalHashes = 0 + 1 * BATCH_SIZE ∧
     (job_probed 0 1).Nodup ∧
     ∀ m, m ∈ job_probed 0 1 ↔ 0 ≤ m ∧ m < 0 + 1 * BATCH_SIZE) :=
  ⟨⟨by decide, by decide⟩,
   c6_batch_driver_no_overflow 0 0 1 (by decide) (by decide)⟩

/-- C10: in every `adaptivepow_opencl_search` call, at most one found nonce
is reported: the host returns found exactly when the result counter is
nonzero, and the reported nonce is the one reassembled from result slot 0
(the first admitted nonce); all other found nonces are discarded. -/
theorem c10_single_result_reported (header dag : List Nat)
    (dagSize target startNonce : Nat) :
    (adaptivepow_opencl_search header dag dagSize target startNonce).toList.length ≤ 1 ∧
    adaptivepow_opencl_search header dag dagSize target startNonce =
      (batchFoundNonces header dag dagSize target startNonce).head?.map
        (fun n => (((n >>> 32) % U32) <<< 32) ||| (n % U32)) := by
  cases hf : batchFoundNonces header dag dagSize target startNonce with
  | nil => constructor <;> simp [adaptivepow_opencl_search, hf]
  | cons a l => constructor <;> simp [adaptivepow_opencl_search, hf]

end AdaptivePow
